import Mathlib

/-!
# Verification of the Airbnb market-scraper pipeline

Shallow embedding of the scraping pipeline:

* `utils/url.go` — `NormalizeURL`, `extractRoomURL`, together with a model of
  the behaviour of Go's `net/url.Parse` on the branches those functions use;
* `scraper/airbnb/scraper.go` — `parseListingsJSON` and the page loop of
  `ScrapeListings` (browser actions abstracted as per-page outcome oracles);
* `scraper/airbnb/homepage_scraper.go` — the homepage query and the
  first-occurrence deduplication of `ScrapeHomepageLocations`;
* `main.go` — the driver: the per-location loop, the detail-URL submission
  list and the merge of `DetailResult`s back into raw listings;
* `services/listing_service.go` — `NormalizeAndSave`.

Strings are handled through their underlying character lists (`String.data`),
so everything is executable and provable by structural induction.
-/

/-! ## Character-list helpers -/

/-- Split a character list at the first occurrence of `c`: returns the part
before it and, when `c` occurs, the part after it (the Go `strings.Cut`). -/
def splitFirst (c : Char) : List Char → List Char × Option (List Char)
  | [] => ([], none)
  | x :: xs =>
    if x = c then ([], some xs)
    else
      let r := splitFirst c xs
      (x :: r.1, r.2)

/-- Index of the first occurrence of character `c` (Go `strings.Index` with a
one-character pattern, character positions rather than byte positions). -/
def idxOfChar (c : Char) : List Char → Option Nat
  | [] => none
  | x :: xs => if x = c then some 0 else (idxOfChar c xs).map (· + 1)

/-- Index of the first occurrence of the pattern `pat` as a contiguous
sublist (Go `strings.Index`, character positions). -/
def idxOfSub (pat : List Char) : List Char → Option Nat
  | [] => if pat.isEmpty then some 0 else none
  | l@(_ :: xs) => if pat.isPrefixOf l then some 0 else (idxOfSub pat xs).map (· + 1)

/-- The characters strictly after the last occurrence of `':'`, when there is
one (Go `net/url`'s `validOptionalPort` scans after the last colon). -/
def portSuffix : List Char → Option (List Char)
  | [] => none
  | c :: rest =>
    match portSuffix rest with
    | some p => some p
    | none => if c = ':' then some rest else none

/-- Split at the last occurrence of `c`: `(before, after)`, or `none` when `c`
does not occur (Go `strings.LastIndex`, used to drop userinfo at `'@'`). -/
def splitAtLast (c : Char) : List Char → Option (List Char × List Char)
  | [] => none
  | x :: xs =>
    match splitAtLast c xs with
    | some (pre, post) => some (x :: pre, post)
    | none => if x = c then some ([], xs) else none

/-! ## Model of Go `net/url.Parse` (the portion relevant to `NormalizeURL`)

`utils/url.go` calls `url.Parse` and reads back `Scheme`, `Host` and `Path`.
The model below reproduces `net/url.parse` for hierarchical URLs:
fragment cut, control-character rejection, scheme scanning with
lower-casing, query cut, authority/path split, userinfo stripping and
character validation, and port validation.  Simplifications, each noted where
it applies: percent-escapes are kept verbatim (Go decodes valid ones and
rejects invalid ones), bracketed IPv6 hosts are rejected, the fragment is
kept verbatim, and positions are character-based rather than byte-based. -/

/-- A control byte in the sense of Go's `stringContainsCTLByte`. -/
def isCtl (c : Char) : Bool := c.toNat < 0x20 || c.toNat == 0x7f

/-- A character allowed after the first position of a URL scheme. -/
def isSchemeTail (c : Char) : Bool := c.isDigit || c = '+' || c = '-' || c = '.'

/-- A character allowed anywhere in a URL scheme. -/
def isSchemeChar (c : Char) : Bool := c.isAlpha || isSchemeTail c

/-- The scan of Go `net/url`'s `getScheme`: `acc` is the (reversed) scheme
prefix consumed so far, `orig` the whole input for the no-scheme outcomes.
`none` models the "missing protocol scheme" parse error. -/
def getSchemeAux (orig : List Char) : List Char → List Char → Option (List Char × List Char)
  | _, [] => some ([], orig)
  | acc, c :: rest =>
    if c.isAlpha then getSchemeAux orig (c :: acc) rest
    else if isSchemeTail c then
      if acc.isEmpty then some ([], orig) else getSchemeAux orig (c :: acc) rest
    else if c = ':' then
      if acc.isEmpty then none else some (acc.reverse.map Char.toLower, rest)
    else some ([], orig)

/-- Go `net/url.getScheme`: either a lower-cased scheme plus remainder, or
no scheme (whole input returned), or a parse error (`none`). -/
def getScheme (l : List Char) : Option (List Char × List Char) := getSchemeAux l [] l

/-- A character Go's host validation (`unescape` in `encodeHost` mode)
accepts verbatim: unreserved, sub-delims, and `: [ ] < > "`.  `'%'` is not
listed: percent-escaped hosts are not modelled and fail to parse. -/
def hostCharOK (c : Char) : Bool :=
  c.isAlpha || c.isDigit ||
  c = '-' || c = '.' || c = '_' || c = '~' || c = '!' || c = '$' || c = '&' ||
  c = '\'' || c = '(' || c = ')' || c = '*' || c = '+' || c = ',' || c = ';' ||
  c = '=' || c = ':' || c = '[' || c = ']' || c = '<' || c = '>' || c = '"'

/-- Go `net/url.validOptionalPort`: if the host has a colon, everything after
the last colon must be digits (possibly empty). -/
def portOK (host : List Char) : Bool :=
  match portSuffix host with
  | none => true
  | some p => p.all Char.isDigit

/-- A character Go's `validUserinfo` accepts in the userinfo subcomponent. -/
def userinfoCharOK (c : Char) : Bool :=
  c.isAlpha || c.isDigit || c = '-' || c = '.' || c = '_' || c = ':' || c = '~' ||
  c = '!' || c = '$' || c = '&' || c = '\'' || c = '(' || c = ')' || c = '*' ||
  c = '+' || c = ',' || c = ';' || c = '=' || c = '%' || c = '@'

/-- Go `net/url.parseHost`, restricted as documented: bracketed (IPv6) hosts
and percent-escaped hosts are rejected rather than decoded. -/
def parseHost (h : List Char) : Option (List Char) :=
  if h.head? = some '[' then none
  else if portOK h && h.all hostCharOK then some h else none

/-- Authority parsing: strip userinfo at the last `'@'` (validating its
characters as Go does) and validate the host. -/
def parseAuthority (auth : List Char) : Option (List Char) :=
  match splitAtLast '@' auth with
  | none => parseHost auth
  | some (ui, h) => if ui.all userinfoCharOK then parseHost h else none

/-- The components of a parsed URL that `NormalizeURL` reads back.  For
opaque URLs (scheme present, remainder not starting with `'/'`) Go leaves
`Path` empty and fills `Opaque`, which `NormalizeURL` never reads; the model
keeps `path = []` there. -/
structure URLParts where
  scheme : List Char
  host : List Char
  path : List Char
  query : List Char
  fragment : List Char
deriving Repr, DecidableEq

/-- Model of Go `net/url.Parse` on a character list (see the section comment
for the simplifications).  `none` models a parse error, which sends
`NormalizeURL` into its `extractRoomURL` fallback. -/
def parseURLChars (l : List Char) : Option URLParts :=
  let fr := splitFirst '#' l
  let frag := fr.2.getD []
  if fr.1.any isCtl then none
  else
    match getScheme fr.1 with
    | none => none
    | some (scheme, rest0) =>
      let qs := splitFirst '?' rest0
      let query := qs.2.getD []
      match qs.1 with
      | '/' :: '/' :: t =>
        if scheme.isEmpty && t.head? = some '/' then
          -- Go: no scheme and a `///` start means no authority, all path
          some ⟨scheme, [], qs.1, query, frag⟩
        else
          let auth := t.takeWhile (· ≠ '/')
          let path := t.dropWhile (· ≠ '/')
          match parseAuthority auth with
          | none => none
          | some host => some ⟨scheme, host, path, query, frag⟩
      | '/' :: rest => some ⟨scheme, [], '/' :: rest, query, frag⟩
      | other =>
        if !scheme.isEmpty then
          -- opaque URL: `Path` stays empty
          some ⟨scheme, [], [], query, frag⟩
        else if (other.takeWhile (· ≠ '/')).contains ':' then
          -- "first path segment in URL cannot contain colon"
          none
        else some ⟨scheme, [], other, query, frag⟩

/-- Go `strings.TrimSuffix(s, "/")`: remove one trailing slash if present. -/
def stripSlash (l : List Char) : List Char :=
  if l.getLast? = some '/' then l.dropLast else l

/-- The reconstruction `parsedURL.Scheme + "://" + parsedURL.Host +
parsedURL.Path` from `utils/url.go`. -/
def baseChars (p : URLParts) : List Char :=
  p.scheme ++ [':', '/', '/'] ++ p.host ++ p.path

/-- `extractRoomURL` from `utils/url.go` on the character list: find
`"/rooms/"`, then cut at the first `'?'` at or after it; otherwise return the
input unchanged. -/
def extractRoomChars (l : List Char) : List Char :=
  match idxOfSub ("/rooms/".data) l with
  | none => l
  | some i =>
    match idxOfChar '?' (l.drop i) with
    | none => l
    | some j => l.take (i + j)

/-- `extractRoomURL` from `utils/url.go`. -/
def extractRoomURL (s : String) : String := ⟨extractRoomChars s.data⟩

/-- `NormalizeURL` from `utils/url.go`: empty input stays empty; on a parse
error fall back to `extractRoomURL`; otherwise rebuild
`scheme://host/path` and trim one trailing slash. -/
def NormalizeURL (s : String) : String :=
  if s = "" then ("")
  else
    match parseURLChars s.data with
    | none => extractRoomURL s
    | some p => ⟨stripSlash (baseChars p)⟩

/-! ## Data model (`models/listing.go`, `scraper/airbnb/*.go`) -/

/-- `models.RawListing`: the pre-normalization record.  Go `int` fields are
modelled as `Int`. -/
structure RawListing where
  title : String
  price : String
  location : String
  rating : String
  url : String
  bedrooms : Int
  bathrooms : Int
  guests : Int
deriving Repr, DecidableEq

/-- The anonymous card record decoded from the in-page extraction JSON in
`parseListingsJSON` (`scraper/airbnb/scraper.go`); same field set as
`RawListing`.  JSON decoding itself is an external library call and is not
modelled: the functions below operate on the decoded card list. -/
structure CardData where
  title : String
  price : String
  location : String
  rating : String
  url : String
  bedrooms : Int
  bathrooms : Int
  guests : Int
deriving Repr, DecidableEq

/-- A detail-page result as used by `main.go`'s merge step (`Bedrooms`,
`Bathrooms`, `Guests`, `Error`); the Go `error` is modelled as
`Option String` with `none` for `nil`. -/
structure DetailResult where
  bedrooms : Int
  bathrooms : Int
  guests : Int
  error : Option String
deriving Repr, DecidableEq

/-- `airbnb.LocationCard` from `homepage_scraper.go`. -/
structure LocationCard where
  name : String
  url : String
deriving Repr, DecidableEq

/-- An anchor element of the homepage as seen by the extraction script in
`ScrapeHomepageLocations`, with the label already resolved by the script's
`innerText.trim() || aria-label || 'Unknown'` fallback chain. -/
structure Anchor where
  name : String
  url : String
deriving Repr, DecidableEq

/-- `models.Listing`, the normalized record handed to storage.  The
database-managed `ID`/`CreatedAt`/`UpdatedAt` columns are omitted; `float64`
price and rating are modelled as `Rat`. -/
structure Listing where
  title : String
  price : Rat
  location : String
  rating : Rat
  url : String
  bedrooms : Int
  bathrooms : Int
  guests : Int
deriving Repr, DecidableEq

/-! ## `parseListingsJSON` (`scraper/airbnb/scraper.go`) -/

/-- The per-card body of `parseListingsJSON`'s loop: clean the text fields
(`utils.CleanText` is not among the sources, so the cleaning function is a
parameter), keep the URL verbatim. -/
def toRawListing (clean : String → String) (c : CardData) : RawListing :=
  { title := clean c.title
    price := clean c.price
    location := clean c.location
    rating := clean c.rating
    url := c.url
    bedrooms := c.bedrooms
    bathrooms := c.bathrooms
    guests := c.guests }

/-- `parseListingsJSON` (`scraper/airbnb/scraper.go`): map each decoded card
to a `RawListing` and keep it only when the cleaned title and the URL are
both non-empty. -/
def parseListingsJSON (clean : String → String) (cards : List CardData) : List RawListing :=
  cards.foldl
    (fun acc c =>
      let listing := toRawListing clean c
      if listing.title ≠ "" ∧ listing.url ≠ "" then acc ++ [listing] else acc)
    []

/-! ## The page loop of `ScrapeListings` (`scraper/airbnb/scraper.go`)

Browser effects are abstracted: for each page number the oracle reports the
outcome of the extraction script (`none` for a `chromedp` error, which the
code logs and `continue`s past), of the next-button check (`none` for an
evaluation error), of the click (primary or alternative selector), and of
the wait for the card container after the click. -/

/-- The observable outcomes of one iteration of the `ScrapeListings` page
loop. -/
structure PageAction where
  extract : Option (List CardData)
  hasNext : Option Bool
  clickOK : Bool
  waitOK : Bool

/-- The `for page := 1; page <= MaxPages; page++` loop of `ScrapeListings`.
`fuel` counts the remaining admissible iterations (`maxPages - page + 1` at
every call), so running out of fuel is exactly the loop condition failing. -/
def scrapePages (clean : String → String) (pages : Nat → PageAction)
    (maxPages perPage : Nat) : Nat → Nat → List RawListing → List RawListing
  | 0, _, acc => acc
  | fuel + 1, page, acc =>
    let a := pages page
    match a.extract with
    | none => scrapePages clean pages maxPages perPage fuel (page + 1) acc
    | some cards =>
      let listings := (parseListingsJSON clean cards).take perPage
      let acc' := acc ++ listings
      if page < maxPages then
        match a.hasNext with
        | none => acc'
        | some false => acc'
        | some true =>
          if a.clickOK then
            if a.waitOK then scrapePages clean pages maxPages perPage fuel (page + 1) acc'
            else acc'
          else acc'
      else acc'

/-- `ScrapeListings` (`scraper/airbnb/scraper.go`): a failed first-page load
returns an error (`none`); otherwise the page loop runs and the function
returns the accumulated listings with a `nil` error (`some`). -/
def ScrapeListings (clean : String → String) (firstLoadOK : Bool)
    (pages : Nat → PageAction) (maxPages perPage : Nat) : Option (List RawListing) :=
  if firstLoadOK then some (scrapePages clean pages maxPages perPage maxPages 1 []) else none

/-! ## `ScrapeHomepageLocations` (`scraper/airbnb/homepage_scraper.go`) -/

/-- `true` when `pat` occurs as a contiguous substring (JavaScript
`String.includes` / Go `strings.Contains`). -/
def containsSub (s pat : String) : Bool := (idxOfSub pat.data s.data).isSome

/-- The homepage extraction script: map anchors to `{name, url}`, keep those
whose URL contains `"/s/"` and `"/homes"` and whose name is neither empty
nor the `"Unknown"` placeholder, and cap at 20 (`slice(0, 20)`). -/
def homepageQuery (anchors : List Anchor) : List LocationCard :=
  ((anchors.map fun a => LocationCard.mk a.name a.url).filter fun loc =>
      containsSub loc.url ("/s/") && containsSub loc.url ("/homes") &&
      loc.name != "" && loc.name != "Unknown").take 20

/-- The deduplication loop of `ScrapeHomepageLocations`: a `seen` set of
URLs, first occurrence wins, encounter order preserved. -/
def dedupAux (seen : List String) : List LocationCard → List LocationCard
  | [] => []
  | c :: rest =>
    if seen.contains c.url then dedupAux seen rest
    else c :: dedupAux (c.url :: seen) rest

/-- Client-side deduplication by URL (`homepage_scraper.go`). -/
def dedupByURL (cards : List LocationCard) : List LocationCard := dedupAux [] cards

/-- `ScrapeHomepageLocations` after a successful page query: the extraction
script's output deduplicated by URL. -/
def ScrapeHomepageLocations (anchors : List Anchor) : List LocationCard :=
  dedupByURL (homepageQuery anchors)

/-! ## The driver (`main.go`) -/

/-- Step 2 of `main`: scrape each location in turn; a per-location error
(`none`) or an empty result is logged and skipped (`continue`), everything
else is appended. -/
def scrapeLocationsLoop (scrape : LocationCard → Option (List RawListing))
    (locs : List LocationCard) : List RawListing :=
  locs.foldl
    (fun acc loc =>
      match scrape loc with
      | none => acc
      | some ls => if ls.isEmpty then acc else acc ++ ls)
    []

/-- Steps 1–2 of `main`: a homepage-discovery failure (`none`) aborts the
run (`log.Fatal`); otherwise every location is processed. -/
def runPipeline (discovered : Option (List LocationCard))
    (scrape : LocationCard → Option (List RawListing)) : Option (List RawListing) :=
  match discovered with
  | none => none
  | some locs => some (scrapeLocationsLoop scrape locs)

/-- Step 3 of `main`: the URLs submitted to the detail pool — the normalized
URL of every raw listing with a non-empty URL, in order. -/
def detailURLs (raws : List RawListing) : List String :=
  raws.foldl (fun acc l => if l.url ≠ "" then acc ++ [NormalizeURL l.url] else acc) []

/-- The merge step of `main`: look the listing's normalized URL up in the
detail-result map and, when a result with a `nil` error is found, overwrite
the three capacity fields. -/
def mergeDetail (results : String → Option DetailResult) (l : RawListing) : RawListing :=
  match results (NormalizeURL l.url) with
  | some d =>
    if d.error = none then
      { l with bedrooms := d.bedrooms, bathrooms := d.bathrooms, guests := d.guests }
    else l
  | none => l

/-- The merge loop of `main` over all raw listings. -/
def mergeDetails (results : String → Option DetailResult)
    (raws : List RawListing) : List RawListing :=
  raws.map (mergeDetail results)

/-! ## The detail worker pool -/

/-- The collection loop of the detail pool: each canonical URL is looked up
in the already-collected results and fetched only when absent, so the
result map has one entry per distinct canonical URL. -/
def detailFold (fetch : String → DetailResult) :
    List String → List (String × DetailResult) → List (String × DetailResult)
  | [], acc => acc
  | u :: rest, acc =>
    detailFold fetch rest
      (if (acc.map Prod.fst).contains u then acc else acc ++ [(u, fetch u)])

/-- Modelled from the spec: `ScrapeDetailsWithWorkers` (`detail_scraper.go`)
is absent from the sources; only its caller in `main.go` is present.  Per
spec §4.4, `fetchDetails` canonicalizes every submitted URL once up front,
runs the worker pool over the queue, and returns a map keyed by canonical
URL with exactly one `DetailResult` per distinct canonical URL, after every
submitted URL has produced a result.  The per-URL outcome (navigation,
retries, extraction) is abstracted as the oracle `fetch`; the map is an
association list. -/
def fetchDetails (fetch : String → DetailResult) (urls : List String) :
    List (String × DetailResult) :=
  detailFold fetch (urls.map NormalizeURL) []

/-! ## `NormalizeAndSave` (`services/listing_service.go`) -/

/-- `ListingService.normalize`: `utils.NormalizePrice` and
`utils.NormalizeRating` are not among the sources, so they are parameters;
the title and location are kept verbatim and the URL is normalized, exactly
as in the source. -/
def normalizeRaw (normPrice normRating : String → Rat) (raw : RawListing) : Listing :=
  { title := raw.title
    price := normPrice raw.price
    location := raw.location
    rating := normRating raw.rating
    url := NormalizeURL raw.url
    bedrooms := raw.bedrooms
    bathrooms := raw.bathrooms
    guests := raw.guests }

/-- The body of `NormalizeAndSave`'s loop (`services/listing_service.go`):
normalize the record, skip it when its title or URL is empty, otherwise
insert it through the database (modelled as a stateful oracle `ins`
returning the new state and whether the insert succeeded) and count the
success. -/
def saveStep {σ : Type} (ins : σ → Listing → σ × Bool)
    (normPrice normRating : String → Rat) (st : σ × Nat) (raw : RawListing) : σ × Nat :=
  let l := normalizeRaw normPrice normRating raw
  if l.title = "" ∨ l.url = "" then st
  else
    let r := ins st.1 l
    (r.1, if r.2 then st.2 + 1 else st.2)

/-- `NormalizeAndSave` (`services/listing_service.go`): an empty input is
the only error; otherwise each record is run through `saveStep` and the
success count is returned with a `nil` error. -/
def NormalizeAndSave {σ : Type} (ins : σ → Listing → σ × Bool) (s0 : σ)
    (normPrice normRating : String → Rat) (raws : List RawListing) : Nat × Option String :=
  if raws.isEmpty then (0, some ("no listings to save"))
  else ((raws.foldl (saveStep ins normPrice normRating) (s0, 0)).2, none)

/-! ## Well-formedness predicates for canonical URLs

Used to state for which inputs `NormalizeURL` is idempotent.  Beyond what
the parser itself guarantees, they exclude percent-escapes (which the model
keeps verbatim but Go would decode on a second pass). -/

/-- A well-formed, already lower-cased scheme. -/
def schemeOK : List Char → Bool
  | [] => false
  | c :: cs =>
    c.isAlpha && (c :: cs).all fun d => isSchemeChar d && (d.toLower == d) && !(isCtl d)

/-- A non-empty, bracket-free, percent-free host with a valid optional
port. -/
def hostOK (h : List Char) : Bool :=
  !h.isEmpty && h.head? != some '[' && portOK h &&
    h.all fun c => hostCharOK c && !(isCtl c)

/-- A path character that survives a re-parse unchanged: not a query, 
fragment or escape introducer and not a control byte. -/
def pathCharOK (c : Char) : Bool := !(c = '?' || c = '#' || c = '%' || isCtl c)

/-! ## Helper lemmas -/

theorem splitFirst_no_occ (c : Char) : ∀ (l : List Char), c ∉ l → splitFirst c l = (l, none) := by
  intro l h
  induction l with
  | nil => rfl
  | cons x xs ih =>
    rw [List.mem_cons, not_or] at h
    have hx : ¬ x = c := fun e => h.1 (Eq.symm e)
    simp [splitFirst, hx, ih h.2]

theorem splitAtLast_no_occ (c : Char) : ∀ (l : List Char), c ∉ l → splitAtLast c l = none := by
  intro l h
  induction l with
  | nil => rfl
  | cons x xs ih =>
    rw [List.mem_cons, not_or] at h
    have hx : ¬ x = c := fun e => h.1 (Eq.symm e)
    simp [splitAtLast, ih h.2, hx]

theorem not_mem_of_all_pred {p : Char → Bool} {c : Char} (hc : p c = false)
    {l : List Char} (hall : ∀ d ∈ l, p d = true) : c ∉ l := by
  intro hmem
  rw [hall c hmem] at hc
  exact Bool.noConfusion hc

theorem map_toLower_self {s : List Char} (h : ∀ c ∈ s, c.toLower = c) :
    s.map Char.toLower = s := by
  induction s with
  | nil => rfl
  | cons c cs ih =>
    rw [List.map_cons, h c (List.mem_cons_self c cs),
      ih fun d hd => h d (List.mem_cons_of_mem c hd)]

theorem getSchemeAux_consume (orig r : List Char) :
    ∀ (s acc : List Char), (∀ c ∈ s, isSchemeChar c = true) →
      (acc = [] → ∃ c cs, s = c :: cs ∧ c.isAlpha = true) →
      getSchemeAux orig acc (s ++ ':' :: r) =
        some (((s.reverse ++ acc).reverse).map Char.toLower, r) := by
  intro s
  induction s with
  | nil =>
    intro acc _ hacc
    have hne : acc ≠ [] := by
      intro he
      obtain ⟨c, cs, hcs, -⟩ := hacc he
      exact List.noConfusion hcs
    have : acc.isEmpty = false := by
      cases acc with
      | nil => exact absurd rfl hne
      | cons a as => rfl
    simp [getSchemeAux, this, isSchemeTail, isCtl]
  | cons c cs ih =>
    intro acc hall hacc
    have hc : isSchemeChar c = true := hall c (List.mem_cons_self c cs)
    have hall' : ∀ d ∈ cs, isSchemeChar d = true := fun d hd => hall d (List.mem_cons_of_mem c hd)
    by_cases ha : c.isAlpha = true
    · rw [List.cons_append]
      rw [show getSchemeAux orig acc (c :: (cs ++ ':' :: r)) =
            getSchemeAux orig (c :: acc) (cs ++ ':' :: r) by simp [getSchemeAux, ha]]
      rw [ih (c :: acc) hall' (fun he => List.noConfusion he)]
      simp [List.append_assoc]
    · have ht : isSchemeTail c = true := by
        rw [isSchemeChar, Bool.or_eq_true] at hc
        exact hc.resolve_left ha
      have hne : acc ≠ [] := by
        intro he
        obtain ⟨d, ds, hds, hda⟩ := hacc he
        rw [List.cons.injEq] at hds
        exact ha (hds.1 ▸ hda)
      have hemp : acc.isEmpty = false := by
        cases acc with
        | nil => exact absurd rfl hne
        | cons a as => rfl
      rw [List.cons_append]
      rw [show getSchemeAux orig acc (c :: (cs ++ ':' :: r)) =
            getSchemeAux orig (c :: acc) (cs ++ ':' :: r) by
          simp [getSchemeAux, ha, ht, hemp]]
      rw [ih (c :: acc) hall' (fun he => List.noConfusion he)]
      simp [List.append_assoc]

theorem schemeOK_facts {s : List Char} (h : schemeOK s = true) :
    (∃ c cs, s = c :: cs ∧ c.isAlpha = true) ∧
      ∀ c ∈ s, isSchemeChar c = true ∧ c.toLower = c ∧ isCtl c = false := by
  match s with
  | [] => exact absurd h (by simp [schemeOK])
  | c :: cs =>
    rw [schemeOK, Bool.and_eq_true, List.all_eq_true] at h
    refine ⟨⟨c, cs, rfl, h.1⟩, ?_⟩
    intro d hd
    have hx := h.2 d hd
    simp only [Bool.and_eq_true, beq_iff_eq, Bool.not_eq_true'] at hx
    exact ⟨hx.1.1, hx.1.2, hx.2⟩

theorem getScheme_of_schemeOK {s : List Char} (h : schemeOK s = true) (r : List Char) :
    getScheme (s ++ ':' :: r) = some (s, r) := by
  obtain ⟨hhead, hall⟩ := schemeOK_facts h
  rw [getScheme, getSchemeAux_consume _ r s [] (fun c hc => (hall c hc).1)
    (fun _ => hhead)]
  simp [map_toLower_self fun c hc => (hall c hc).2.1]

theorem hostOK_facts {h : List Char} (hh : hostOK h = true) :
    h ≠ [] ∧ h.head? ≠ some '[' ∧ portOK h = true ∧
      ∀ c ∈ h, hostCharOK c = true ∧ isCtl c = false := by
  rw [hostOK, Bool.and_eq_true, Bool.and_eq_true, Bool.and_eq_true, List.all_eq_true] at hh
  obtain ⟨⟨⟨h1, h2⟩, h3⟩, h4⟩ := hh
  refine ⟨?_, ?_, h3, ?_⟩
  · intro he
    rw [he] at h1
    exact Bool.noConfusion h1
  · intro he
    rw [he] at h2
    simp at h2
  · intro c hc
    have := h4 c hc
    simp only [Bool.and_eq_true, Bool.not_eq_true'] at this
    exact this

theorem pathCharOK_facts {c : Char} (h : pathCharOK c = true) :
    c ≠ '?' ∧ c ≠ '#' ∧ c ≠ '%' ∧ isCtl c = false := by
  rw [pathCharOK] at h
  simp only [Bool.not_eq_true', Bool.or_eq_false_iff, decide_eq_false_iff_not] at h
  exact ⟨h.1.1.1, h.1.1.2, h.1.2, h.2⟩

theorem parse_baseChars {p : URLParts}
    (hs : schemeOK p.scheme = true) (hh : hostOK p.host = true)
    (hpall : ∀ c ∈ p.path, pathCharOK c = true)
    (hphead : p.path = [] ∨ ∃ t, p.path = '/' :: t) :
    parseURLChars (baseChars p) = some ⟨p.scheme, p.host, p.path, [], []⟩ := by
  obtain ⟨⟨c0, cs0, hsch, hc0⟩, hsall⟩ := schemeOK_facts hs
  obtain ⟨hhne, hbr, hport, hhall⟩ := hostOK_facts hh
  have hbase : baseChars p = p.scheme ++ ':' :: '/' :: '/' :: (p.host ++ p.path) := by
    simp [baseChars]
  set rest : List Char := '/' :: '/' :: (p.host ++ p.path) with hrest
  have hmemrest : ∀ c, c ∈ rest → c = '/' ∨ c ∈ p.host ∨ c ∈ p.path := by
    intro c hc
    rw [hrest] at hc
    simp only [List.mem_cons, List.mem_append] at hc
    tauto
  have hnohash : '#' ∉ p.scheme ++ ':' :: rest := by
    intro hc
    simp only [List.mem_append, List.mem_cons] at hc
    rcases hc with hc | hc | hc
    · exact not_mem_of_all_pred (p := isSchemeChar) (by decide)
        (fun d hd => (hsall d hd).1) hc
    · exact absurd hc (by decide)
    · rcases hmemrest '#' hc with hc | hc | hc
      · exact absurd hc (by decide)
      · exact not_mem_of_all_pred (p := hostCharOK) (by decide)
          (fun d hd => (hhall d hd).1) hc
      · exact not_mem_of_all_pred (p := pathCharOK) (by decide) hpall hc
  have h1 : splitFirst '#' (p.scheme ++ ':' :: rest) = (p.scheme ++ ':' :: rest, none) :=
    splitFirst_no_occ _ _ hnohash
  have h2 : (p.scheme ++ ':' :: rest).any isCtl = false := by
    rw [List.any_eq_false]
    intro c hc
    simp only [List.mem_append, List.mem_cons] at hc
    rcases hc with hc | hc | hc
    · rw [(hsall c hc).2.2]; exact Bool.noConfusion
    · subst hc; decide
    · rcases hmemrest c hc with hc | hc | hc
      · subst hc; decide
      · rw [(hhall c hc).2]; exact Bool.noConfusion
      · rw [(pathCharOK_facts (hpall c hc)).2.2.2]; exact Bool.noConfusion
  have h3 : getScheme (p.scheme ++ ':' :: rest) = some (p.scheme, rest) :=
    getScheme_of_schemeOK hs rest
  have hnoq : '?' ∉ rest := by
    intro hc
    rcases hmemrest '?' hc with hc | hc | hc
    · exact absurd hc (by decide)
    · exact not_mem_of_all_pred (p := hostCharOK) (by decide)
        (fun d hd => (hhall d hd).1) hc
    · exact not_mem_of_all_pred (p := pathCharOK) (by decide) hpall hc
  have h4 : splitFirst '?' rest = (rest, none) := splitFirst_no_occ _ _ hnoq
  have hslash : ∀ a ∈ p.host, ¬ a = '/' := by
    intro a ha he
    have := (hhall a ha).1
    rw [he] at this
    exact Bool.noConfusion this
  have h5 : (p.host ++ p.path).takeWhile (· ≠ '/') = p.host := by
    rw [List.takeWhile_append_of_pos (by simpa using hslash)]
    rcases hphead with he | ⟨t, he⟩
    · simp [he]
    · simp [he, List.takeWhile_cons]
  have h6 : (p.host ++ p.path).dropWhile (· ≠ '/') = p.path := by
    rw [List.dropWhile_append_of_pos (by simpa using hslash)]
    rcases hphead with he | ⟨t, he⟩
    · simp [he]
    · simp [he, List.dropWhile_cons]
  have h7 : splitAtLast '@' p.host = none := by
    refine splitAtLast_no_occ _ _ ?_
    exact not_mem_of_all_pred (p := hostCharOK) (by decide)
      (fun d hd => (hhall d hd).1)
  have h8 : parseHost p.host = some p.host := by
    rw [parseHost, if_neg hbr, if_pos]
    rw [Bool.and_eq_true, List.all_eq_true]
    exact ⟨hport, fun c hc => (hhall c hc).1⟩
  have hsne : p.scheme.isEmpty = false := by rw [hsch]; rfl
  rw [hbase, parseURLChars]
  rw [h1]
  simp only [Option.getD]
  rw [h2]
  simp only [Bool.false_eq_true, if_false]
  rw [h3]
  simp only [h4, hrest, hsne, Bool.false_and, Bool.false_eq_true, if_false, h5, h6,
    parseAuthority, h7, h8]

theorem stripSlash_eq_self {p : URLParts}
    (hh : hostOK p.host = true)
    (hplast : p.path.getLast? ≠ some '/') :
    stripSlash (baseChars p) = baseChars p := by
  obtain ⟨hhne, -, -, hhall⟩ := hostOK_facts hh
  rw [stripSlash, if_neg]
  rw [baseChars]
  cases hpe : p.path with
  | nil =>
    rw [List.append_nil, List.getLast?_append_of_ne_nil _ hhne]
    intro he
    have := (hhall _ (List.mem_of_getLast?_eq_some he)).1
    exact Bool.noConfusion this
  | cons c cs =>
    rw [List.getLast?_append_of_ne_nil _ (List.cons_ne_nil c cs)]
    rw [hpe] at hplast
    exact hplast

theorem parse_empty_scheme {s : String} {p : URLParts}
    (h : parseURLChars s.data = some p) (he : s = "") : p.scheme = [] := by
  subst he
  have : parseURLChars ("" : String).data = some ⟨[], [], [], [], []⟩ := by decide
  rw [this] at h
  injection h with h
  rw [← h]

/-- C1: for every absolute URL string that parses successfully (a parse
yielding a non-empty scheme), `NormalizeURL` returns exactly the
reconstruction `scheme://host/path` — query parameters and fragment
dropped — with a trailing slash stripped. -/
theorem normalizeURL_scheme_host_path (s : String) (p : URLParts)
    (h : parseURLChars s.data = some p) (habs : p.scheme ≠ []) :
    NormalizeURL s = ⟨stripSlash (baseChars p)⟩ := by
  have hs : ¬ s = "" := fun he => habs (parse_empty_scheme h he)
  rw [NormalizeURL, if_neg hs, h]

/-- C1 witness: the spec's concrete example. -/
theorem normalizeURL_scheme_host_path_witness :
    NormalizeURL ("https://x/rooms/1?a=1&b=2") = "https://x/rooms/1" := by
  have h := normalizeURL_scheme_host_path ("https://x/rooms/1?a=1&b=2")
    ⟨"https".data, "x".data, "/rooms/1".data, "a=1&b=2".data, []⟩ (by decide) (by decide)
  rw [h]
  decide

/-- C2 counterexample: `NormalizeURL` is not idempotent.  On
`"http://h//"` the reconstruction ends in two slashes, `TrimSuffix` removes
only one, and a second pass removes another. -/
theorem normalizeURL_not_idempotent :
    ¬ (NormalizeURL (NormalizeURL ("http://h//")) = NormalizeURL ("http://h//")) := by
  decide

/-- C2 amended: `NormalizeURL` is idempotent on every URL that parses into
a well-formed lower-case scheme, a valid host, and a path that is free of
`?`, `#`, `%` and control characters, starts with `/` (or is empty), and
does not end with `/`. -/
theorem normalizeURL_idem_on_clean_parse (u : String) (p : URLParts)
    (h : parseURLChars u.data = some p)
    (hs : schemeOK p.scheme = true)
    (hh : hostOK p.host = true)
    (hpall : ∀ c ∈ p.path, pathCharOK c = true)
    (hphead : p.path = [] ∨ ∃ t, p.path = '/' :: t)
    (hplast : p.path.getLast? ≠ some '/') :
    NormalizeURL (NormalizeURL u) = NormalizeURL u := by
  have hsne : p.scheme ≠ [] := by
    intro he
    rw [he] at hs
    exact Bool.noConfusion hs
  have h0 : NormalizeURL u = ⟨stripSlash (baseChars p)⟩ :=
    normalizeURL_scheme_host_path u p h hsne
  have hstrip : stripSlash (baseChars p) = baseChars p :=
    stripSlash_eq_self hh hplast
  have hbne : ¬ (⟨baseChars p⟩ : String) = "" := by
    intro he
    have hd : baseChars p = [] := congrArg String.data he
    obtain ⟨c0, cs0, hsch, -⟩ := (schemeOK_facts hs).1
    rw [baseChars, hsch] at hd
    exact List.noConfusion hd
  rw [h0, hstrip]
  rw [NormalizeURL, if_neg hbne]
  have hdata : (⟨baseChars p⟩ : String).data = baseChars p := rfl
  rw [hdata, parse_baseChars hs hh hpall hphead]
  exact congrArg String.mk hstrip

/-- C2 witness: the amended idempotence theorem applied at a concrete
listing URL. -/
theorem normalizeURL_idem_witness :
    NormalizeURL (NormalizeURL ("https://x/rooms/1?a=1")) = NormalizeURL ("https://x/rooms/1?a=1") := by
  refine normalizeURL_idem_on_clean_parse _
    ⟨"https".data, "x".data, "/rooms/1".data, "a=1".data, []⟩
    (by decide) (by decide) (by decide) (by decide) (Or.inr ⟨"rooms/1".data, by decide⟩)
    (by decide)

/-! ## C3: the driver submits and merges by the same canonicalization -/

theorem detailURLs_fold (raws : List RawListing) :
    ∀ acc, raws.foldl (fun acc l => if l.url ≠ "" then acc ++ [NormalizeURL l.url] else acc) acc =
      acc ++ (raws.filter fun l => l.url != "").map fun l => NormalizeURL l.url := by
  induction raws with
  | nil => intro acc; simp
  | cons r rs ih =>
    intro acc
    rw [List.foldl_cons, ih]
    by_cases hr : r.url = ""
    · simp [hr, List.filter_cons]
    · simp [hr, List.filter_cons, List.append_assoc]

/-- C3: the detail pool is fed `NormalizeURL` of each raw listing URL (the
non-empty ones), the merge looks up `NormalizeURL` of each raw listing URL,
and any listing whose canonical URL maps to an error-free `DetailResult`
receives exactly that result's bedrooms, bathrooms and guests. -/
theorem merge_keys_consistent (raws : List RawListing)
    (results : String → Option DetailResult) :
    detailURLs raws = ((raws.filter fun l => l.url != "").map fun l => NormalizeURL l.url) ∧
      ∀ (i : Nat) (l : RawListing) (d : DetailResult),
        raws[i]? = some l → results (NormalizeURL l.url) = some d →
        d.error = none →
        (mergeDetails results raws)[i]? =
          some { l with bedrooms := d.bedrooms, bathrooms := d.bathrooms, guests := d.guests } := by
  constructor
  · rw [detailURLs, detailURLs_fold raws []]
    simp
  · intro i l d hget hres herr
    rw [mergeDetails, List.getElem?_map, hget]
    simp only [Option.map_some']
    rw [mergeDetail, hres]
    simp [herr]

/-- C3 witness. -/
theorem merge_keys_consistent_witness :
    (mergeDetails
        (fun u => if u = "https://x/rooms/1" then some ⟨3, 2, 6, none⟩ else none)
        [⟨"t", "p", "loc", "r", "https://x/rooms/1?a=1", 0, 0, 0⟩])[0]? =
      some ⟨"t", "p", "loc", "r", "https://x/rooms/1?a=1", 3, 2, 6⟩ := by
  have h := (merge_keys_consistent
      [⟨"t", "p", "loc", "r", "https://x/rooms/1?a=1", 0, 0, 0⟩]
      (fun u => if u = "https://x/rooms/1" then some ⟨3, 2, 6, none⟩ else none)).2
      0 ⟨"t", "p", "loc", "r", "https://x/rooms/1?a=1", 0, 0, 0⟩ ⟨3, 2, 6, none⟩
      (by decide) (by decide) rfl
  exact h

/-! ## C4: the detail pool — one result per distinct canonical URL -/

theorem detailFold_mem_keys (fetch : String → DetailResult) :
    ∀ (l : List String) (acc : List (String × DetailResult)) (u : String),
      u ∈ (detailFold fetch l acc).map Prod.fst ↔ u ∈ acc.map Prod.fst ∨ u ∈ l := by
  intro l
  induction l with
  | nil => intro acc u; simp [detailFold]
  | cons v vs ih =>
    intro acc u
    rw [detailFold]
    by_cases hv : (acc.map Prod.fst).contains v
    · rw [if_pos hv, ih]
      simp only [List.contains, List.elem_eq_mem, decide_eq_true_eq] at hv
      constructor
      · intro h
        rcases h with h | h
        · exact Or.inl h
        · exact Or.inr (List.mem_cons_of_mem v h)
      · intro h
        rcases h with h | h
        · exact Or.inl h
        · rcases List.mem_cons.mp h with he | h
          · exact Or.inl (he ▸ hv)
          · exact Or.inr h
    · rw [if_neg hv, ih]
      simp only [List.map_append, List.mem_append, List.map_cons, List.map_nil,
        List.mem_singleton, List.mem_cons]
      tauto

theorem detailFold_keys_nodup (fetch : String → DetailResult) :
    ∀ (l : List String) (acc : List (String × DetailResult)),
      (acc.map Prod.fst).Nodup → ((detailFold fetch l acc).map Prod.fst).Nodup := by
  intro l
  induction l with
  | nil => intro acc h; exact h
  | cons v vs ih =>
    intro acc h
    rw [detailFold]
    by_cases hv : (acc.map Prod.fst).contains v
    · rw [if_pos hv]; exact ih acc h
    · rw [if_neg hv]
      refine ih _ ?_
      rw [List.map_append]
      simp only [List.contains, List.elem_eq_mem, decide_eq_true_eq] at hv
      rw [List.nodup_append]
      refine ⟨h, by simp, ?_⟩
      intro a ha hb
      simp only [List.map_cons, List.map_nil, List.mem_singleton] at hb
      exact hv (hb ▸ ha)

theorem detailFold_values (fetch : String → DetailResult) :
    ∀ (l : List String) (acc : List (String × DetailResult)) (u : String) (d : DetailResult),
      (u, d) ∈ detailFold fetch l acc → (u, d) ∈ acc ∨ d = fetch u := by
  intro l
  induction l with
  | nil => intro acc u d h; exact Or.inl h
  | cons v vs ih =>
    intro acc u d h
    rw [detailFold] at h
    by_cases hv : (acc.map Prod.fst).contains v
    · rw [if_pos hv] at h; exact ih acc u d h
    · rw [if_neg hv] at h
      rcases ih _ u d h with h' | h'
      · rcases List.mem_append.mp h' with h'' | h''
        · exact Or.inl h''
        · simp only [List.mem_singleton, Prod.mk.injEq] at h''
          refine Or.inr ?_
          rw [h''.1]
          exact h''.2
      · exact Or.inr h'

/-- C4: `fetchDetails` returns a map with exactly one entry per distinct
canonical URL of the submitted list — keys are duplicate-free, a key is
present exactly when it is the canonicalization of some submitted URL (so
every submitted URL has produced a result), each key's value is the fetch
outcome for that key, and the number of entries is exactly the number of
distinct canonical URLs. -/
theorem fetchDetails_one_per_canonical (fetch : String → DetailResult) (urls : List String) :
    ((fetchDetails fetch urls).map Prod.fst).Nodup ∧
      (∀ u : String, u ∈ (fetchDetails fetch urls).map Prod.fst ↔ u ∈ urls.map NormalizeURL) ∧
      (∀ (u : String) (d : DetailResult), (u, d) ∈ fetchDetails fetch urls → d = fetch u) ∧
      (fetchDetails fetch urls).length = (urls.map NormalizeURL).toFinset.card := by
  have hnd : ((fetchDetails fetch urls).map Prod.fst).Nodup :=
    detailFold_keys_nodup fetch _ [] (by simp)
  have hmem : ∀ u : String,
      u ∈ (fetchDetails fetch urls).map Prod.fst ↔ u ∈ urls.map NormalizeURL := by
    intro u
    rw [fetchDetails, detailFold_mem_keys]
    simp
  refine ⟨hnd, hmem, ?_, ?_⟩
  · intro u d h
    rcases detailFold_values fetch _ [] u d h with h' | h'
    · exact absurd h' (List.not_mem_nil _)
    · exact h'
  · have h1 : (fetchDetails fetch urls).length =
        ((fetchDetails fetch urls).map Prod.fst).length := by
      rw [List.length_map]
    rw [h1, ← List.toFinset_card_of_nodup hnd]
    congr 1
    apply Finset.ext
    intro u
    rw [List.mem_toFinset, List.mem_toFinset]
    exact hmem u

/-- C4 witness: three submitted URLs, two distinct canonical ones. -/
theorem fetchDetails_one_per_canonical_witness :
    ((fetchDetails (fun _ => ⟨1, 1, 2, none⟩)
        ["https://x/rooms/1?a=1", "https://x/rooms/1?b=2", "https://x/rooms/2"]).map
      Prod.fst).Nodup ∧
    (fetchDetails (fun _ => ⟨1, 1, 2, none⟩)
        ["https://x/rooms/1?a=1", "https://x/rooms/1?b=2", "https://x/rooms/2"]).length = 2 := by
  have h := fetchDetails_one_per_canonical (fun _ => ⟨1, 1, 2, none⟩)
    ["https://x/rooms/1?a=1", "https://x/rooms/1?b=2", "https://x/rooms/2"]
  refine ⟨h.1, ?_⟩
  rw [h.2.2.2]
  decide

/-! ## C5: retention rule of `parseListingsJSON` -/

/-- C5: `parseListingsJSON` retains exactly the cards whose cleaned title
and (verbatim) URL are both non-empty, in input order: it equals a filter
of the mapped card list, so a card with a title but an empty URL is
dropped and a card with empty rating or price but title and URL present is
kept. -/
theorem parseListingsJSON_eq_filter_map (clean : String → String) (cards : List CardData) :
    parseListingsJSON clean cards =
      (cards.map (toRawListing clean)).filter fun l => l.title != "" && l.url != "" := by
  have key : ∀ (cs : List CardData) (acc : List RawListing),
      cs.foldl (fun acc c =>
        let listing := toRawListing clean c
        if listing.title ≠ "" ∧ listing.url ≠ "" then acc ++ [listing] else acc) acc =
      acc ++ (cs.map (toRawListing clean)).filter (fun l => l.title != "" && l.url != "") := by
    intro cs
    induction cs with
    | nil => intro acc; simp
    | cons c cs ih =>
      intro acc
      rw [List.foldl_cons, ih]
      simp only [List.map_cons, List.filter_cons]
      by_cases hc : (toRawListing clean c).title ≠ "" ∧ (toRawListing clean c).url ≠ ""
      · rw [if_pos hc, if_pos (by simp [bne_iff_ne, hc.1, hc.2])]
        rw [List.append_assoc]
        rfl
      · rw [if_neg hc, if_neg]
        simp only [Bool.and_eq_true, bne_iff_ne]
        exact fun h => hc ⟨h.1, h.2⟩
  rw [parseListingsJSON, key]
  rfl

/-! ## C6: a failed wait after advancing keeps partial results, nil error -/

/-- C6: when, on a non-final page, extraction succeeds, a next control is
found, the click succeeds but the wait for the card container fails, the
page loop stops with the listings accumulated so far (including the current
page) and `ScrapeListings` still returns them with a `nil` error. -/
theorem scrape_wait_failure_keeps_results (clean : String → String) (pages : Nat → PageAction)
    (maxPages perPage fuel page : Nat) (acc : List RawListing) (cards : List CardData)
    (hex : (pages page).extract = some cards)
    (hnext : (pages page).hasNext = some true)
    (hclick : (pages page).clickOK = true)
    (hwait : (pages page).waitOK = false)
    (hlt : page < maxPages) :
    scrapePages clean pages maxPages perPage (fuel + 1) page acc =
        acc ++ (parseListingsJSON clean cards).take perPage ∧
      ∃ l, ScrapeListings clean true pages maxPages perPage = some l := by
  constructor
  · rw [scrapePages, hex]
    simp [hnext, hclick, hwait, hlt]
  · exact ⟨_, rfl⟩

/-- C6 witness: a two-page run whose first page extracts one card and whose
wait after the click fails. -/
theorem scrape_wait_failure_keeps_results_witness :
    scrapePages (fun s => s)
      (fun _ => ⟨some [⟨"t", "", "", "", "u", 0, 0, 0⟩], some true, true, false⟩)
      2 5 1 1 [] = [⟨"t", "", "", "", "u", 0, 0, 0⟩] := by
  have h := (scrape_wait_failure_keeps_results (fun s => s)
      (fun _ => ⟨some [⟨"t", "", "", "", "u", 0, 0, 0⟩], some true, true, false⟩)
      2 5 0 1 [] [⟨"t", "", "", "", "u", 0, 0, 0⟩] rfl rfl rfl rfl (by decide)).1
  rw [h]
  decide

/-! ## C7: page and run bounds -/

theorem scrapePages_length_bound (clean : String → String) (pages : Nat → PageAction)
    (maxPages perPage : Nat) :
    ∀ (fuel page : Nat) (acc : List RawListing),
      (scrapePages clean pages maxPages perPage fuel page acc).length ≤
        acc.length + fuel * perPage := by
  intro fuel
  induction fuel with
  | zero => intro page acc; simp [scrapePages]
  | succ f ih =>
    intro page acc
    rw [scrapePages]
    cases hex : (pages page).extract with
    | none =>
      simp only []
      refine le_trans (ih (page + 1) acc) ?_
      have : f * perPage ≤ (f + 1) * perPage := Nat.mul_le_mul_right _ (Nat.le_succ f)
      omega
    | some cards =>
      have htake : ((parseListingsJSON clean cards).take perPage).length ≤ perPage :=
        List.length_take_le _ _
      have hacc' : (acc ++ (parseListingsJSON clean cards).take perPage).length ≤
          acc.length + perPage := by
        rw [List.length_append]; omega
      have hmul : (f + 1) * perPage = f * perPage + perPage := Nat.succ_mul f perPage
      simp only []
      rw [hmul]
      split
      · split
        · exact le_trans hacc' (by omega)
        · exact le_trans hacc' (by omega)
        · split
          · split
            · refine le_trans
                (ih (page + 1) (acc ++ (parseListingsJSON clean cards).take perPage)) ?_
              omega
            · exact le_trans hacc' (by omega)
          · exact le_trans hacc' (by omega)
      · exact le_trans hacc' (by omega)

/-- C7: every page contributes at most `perPage` listings (the first
`perPage` parsed from that page), the loop runs at most `maxPages`
iterations (its fuel), so the whole extraction returns at most
`maxPages * perPage` listings. -/
theorem scrapeListings_total_bound (clean : String → String) (firstLoadOK : Bool)
    (pages : Nat → PageAction) (maxPages perPage : Nat) :
    (∀ (fuel page : Nat) (acc : List RawListing),
        (scrapePages clean pages maxPages perPage fuel page acc).length ≤
          acc.length + fuel * perPage) ∧
      ∀ l : List RawListing,
        ScrapeListings clean firstLoadOK pages maxPages perPage = some l →
          l.length ≤ maxPages * perPage := by
  refine ⟨scrapePages_length_bound clean pages maxPages perPage, ?_⟩
  intro l hl
  rw [ScrapeListings] at hl
  by_cases hf : firstLoadOK = true
  · rw [if_pos hf] at hl
    injection hl with hl
    rw [← hl]
    have := scrapePages_length_bound clean pages maxPages perPage maxPages 1 []
    simpa using this
  · rw [if_neg hf] at hl
    exact Option.noConfusion hl

/-- C7 witness: two pages of two cards each, truncated to one per page. -/
theorem scrapeListings_total_bound_witness :
    (scrapePages (fun s => s)
        (fun _ => ⟨some [⟨"a", "", "", "", "u1", 0, 0, 0⟩, ⟨"b", "", "", "", "u2", 0, 0, 0⟩],
          some true, true, true⟩) 2 1 2 1 []).length ≤ 2 * 1 :=
  (scrapeListings_total_bound (fun s => s) true
      (fun _ => ⟨some [⟨"a", "", "", "", "u1", 0, 0, 0⟩, ⟨"b", "", "", "", "u2", 0, 0, 0⟩],
        some true, true, true⟩) 2 1).2 _ rfl

/-! ## C8: homepage deduplication -/

theorem dedupAux_sublist (l : List LocationCard) :
    ∀ seen, (dedupAux seen l).Sublist l := by
  induction l with
  | nil => intro seen; simp [dedupAux]
  | cons c rest ih =>
    intro seen
    rw [dedupAux]
    by_cases hc : (seen.contains c.url) = true
    · rw [if_pos hc]; exact (ih seen).cons c
    · rw [if_neg hc]; exact (ih _).cons₂ c

theorem dedupAux_seen_excluded (l : List LocationCard) :
    ∀ (seen : List String) (u : String), u ∈ seen →
      u ∉ (dedupAux seen l).map (fun b => b.url) := by
  induction l with
  | nil => intro seen u _; simp [dedupAux]
  | cons c rest ih =>
    intro seen u hu
    rw [dedupAux]
    by_cases hc : (seen.contains c.url) = true
    · rw [if_pos hc]; exact ih seen u hu
    · rw [if_neg hc]
      simp only [List.map_cons, List.mem_cons, not_or]
      constructor
      · intro he
        simp only [List.contains, List.elem_eq_mem, decide_eq_true_eq] at hc
        exact hc (he ▸ hu)
      · exact ih (c.url :: seen) u (List.mem_cons_of_mem _ hu)

theorem dedupAux_nodup (l : List LocationCard) :
    ∀ seen, ((dedupAux seen l).map (fun b => b.url)).Nodup := by
  induction l with
  | nil => intro seen; simp [dedupAux]
  | cons c rest ih =>
    intro seen
    rw [dedupAux]
    by_cases hc : (seen.contains c.url) = true
    · rw [if_pos hc]; exact ih seen
    · rw [if_neg hc]
      simp only [List.map_cons, List.nodup_cons]
      exact ⟨dedupAux_seen_excluded rest (c.url :: seen) c.url (List.mem_cons_self _ _),
        ih (c.url :: seen)⟩

theorem dedupAux_covers (l : List LocationCard) :
    ∀ (seen : List String), ∀ a ∈ l,
      a.url ∈ seen ∨ ∃ b ∈ dedupAux seen l, b.url = a.url := by
  induction l with
  | nil => intro seen a ha; exact absurd ha (List.not_mem_nil a)
  | cons c rest ih =>
    intro seen a ha
    rw [dedupAux]
    by_cases hc : (seen.contains c.url) = true
    · rw [if_pos hc]
      rcases List.mem_cons.mp ha with he | ha'
      · simp only [List.contains, List.elem_eq_mem, decide_eq_true_eq] at hc
        exact Or.inl (he ▸ hc)
      · exact ih seen a ha'
    · rw [if_neg hc]
      rcases List.mem_cons.mp ha with he | ha'
      · exact Or.inr ⟨c, List.mem_cons_self _ _, (he ▸ rfl : c.url = a.url)⟩
      · rcases ih (c.url :: seen) a ha' with h | ⟨b, hb, hbu⟩
        · rcases List.mem_cons.mp h with he' | h'
          · exact Or.inr ⟨c, List.mem_cons_self _ _, he'.symm⟩
          · exact Or.inl h'
        · exact Or.inr ⟨b, List.mem_cons_of_mem c hb, hbu⟩

theorem dedupAux_first_occurrence (l : List LocationCard) :
    ∀ (seen : List String), ∀ b ∈ dedupAux seen l,
      b.url ∉ seen ∧ l.find? (fun x => x.url == b.url) = some b := by
  induction l with
  | nil => intro seen b hb; exact absurd hb (List.not_mem_nil b)
  | cons c rest ih =>
    intro seen b hb
    rw [dedupAux] at hb
    by_cases hc : (seen.contains c.url) = true
    · rw [if_pos hc] at hb
      obtain ⟨hnot, hfind⟩ := ih seen b hb
      have hne : ¬ (c.url == b.url) = true := by
        intro he
        rw [beq_iff_eq] at he
        simp only [List.contains, List.elem_eq_mem, decide_eq_true_eq] at hc
        exact hnot (he ▸ hc)
      exact ⟨hnot, by
        rw [List.find?_cons_of_neg (p := fun x => x.url == b.url) rest hne]
        exact hfind⟩
    · rw [if_neg hc] at hb
      simp only [List.contains, List.elem_eq_mem, decide_eq_true_eq] at hc
      rcases List.mem_cons.mp hb with he | hb'
      · subst he
        exact ⟨hc, List.find?_cons_of_pos (p := fun x => x.url == b.url) rest (by rw [beq_iff_eq])⟩
      · obtain ⟨hnot, hfind⟩ := ih (c.url :: seen) b hb'
        rw [List.mem_cons, not_or] at hnot
        have hne : ¬ (c.url == b.url) = true := by
          intro he
          rw [beq_iff_eq] at he
          exact hnot.1 he.symm
        exact ⟨hnot.2, by
          rw [List.find?_cons_of_neg (p := fun x => x.url == b.url) rest hne]
          exact hfind⟩

/-- C8: `ScrapeHomepageLocations` deduplicates by URL with the first
occurrence winning and order preserved: its output has duplicate-free URLs,
is a sublist of the extracted card sequence (order preserved), covers every
extracted URL, each returned card is the first extracted card with its URL,
and at most 20 entries are returned. -/
theorem scrapeHomepage_dedup (anchors : List Anchor) :
    ((ScrapeHomepageLocations anchors).map (fun b => b.url)).Nodup ∧
      (ScrapeHomepageLocations anchors).Sublist (homepageQuery anchors) ∧
      (∀ a ∈ homepageQuery anchors, ∃ b ∈ ScrapeHomepageLocations anchors, b.url = a.url) ∧
      (∀ b ∈ ScrapeHomepageLocations anchors,
        (homepageQuery anchors).find? (fun x => x.url == b.url) = some b) ∧
      (ScrapeHomepageLocations anchors).length ≤ 20 := by
  refine ⟨dedupAux_nodup _ [], dedupAux_sublist _ [], ?_, ?_, ?_⟩
  · intro a ha
    rcases dedupAux_covers (homepageQuery anchors) [] a ha with h | h
    · exact absurd h (List.not_mem_nil _)
    · exact h
  · intro b hb
    exact (dedupAux_first_occurrence (homepageQuery anchors) [] b hb).2
  · refine le_trans (List.Sublist.length_le (dedupAux_sublist _ [])) ?_
    rw [homepageQuery]
    exact List.length_take_le _ _

/-- C8 witness: two anchors sharing a URL collapse to the first. -/
theorem scrapeHomepage_dedup_witness :
    ∃ b ∈ ScrapeHomepageLocations
        [⟨"Paris", "https://a/s/Paris/homes"⟩, ⟨"Paris again", "https://a/s/Paris/homes"⟩],
      b.url = "https://a/s/Paris/homes" := by
  have h := (scrapeHomepage_dedup
      [⟨"Paris", "https://a/s/Paris/homes"⟩, ⟨"Paris again", "https://a/s/Paris/homes"⟩]).2.2.1
  exact h ⟨"Paris again", "https://a/s/Paris/homes"⟩ (by decide)

/-! ## C9: per-location errors are contained, discovery failure is fatal -/

/-- C9: a location whose extraction errors is skipped — the run result over
`pre ++ [loc] ++ post` equals the result over `pre ++ post`, so every
remaining location is still processed — while a homepage-discovery failure
terminates the run, and a successful discovery always yields a completed
run. -/
theorem location_error_contained (scrape : LocationCard → Option (List RawListing))
    (pre post : List LocationCard) (loc : LocationCard)
    (hfail : scrape loc = none) :
    scrapeLocationsLoop scrape (pre ++ loc :: post) = scrapeLocationsLoop scrape (pre ++ post) ∧
      runPipeline none scrape = none ∧
      ∀ locs, runPipeline (some locs) scrape = some (scrapeLocationsLoop scrape locs) := by
  refine ⟨?_, rfl, fun _ => rfl⟩
  rw [scrapeLocationsLoop, scrapeLocationsLoop, List.foldl_append, List.foldl_append,
    List.foldl_cons, hfail]

/-- C9 witness: the failing second location of three is skipped. -/
theorem location_error_contained_witness :
    scrapeLocationsLoop
        (fun loc => if loc.url = "u2" then none else some [⟨loc.name, "", "", "", loc.url, 0, 0, 0⟩])
        ([⟨"a", "u1"⟩] ++ ⟨"b", "u2"⟩ :: [⟨"c", "u3"⟩]) =
      scrapeLocationsLoop
        (fun loc => if loc.url = "u2" then none else some [⟨loc.name, "", "", "", loc.url, 0, 0, 0⟩])
        ([⟨"a", "u1"⟩] ++ [⟨"c", "u3"⟩]) :=
  (location_error_contained
    (fun loc => if loc.url = "u2" then none else some [⟨loc.name, "", "", "", loc.url, 0, 0, 0⟩])
    [⟨"a", "u1"⟩] [⟨"c", "u3"⟩] ⟨"b", "u2"⟩ rfl).1

/-! ## C10: `NormalizeAndSave` error and count contract -/

/-- C10: `NormalizeAndSave` errors exactly on empty input, and for a
database oracle with per-record outcomes `f` the returned count is the
number of retained (non-skipped) records whose insert succeeded; skipped
and failed records never disturb the `nil` error. -/
theorem normalizeAndSave_contract {σ : Type} (ins : σ → Listing → σ × Bool) (s0 : σ)
    (f : Listing → Bool) (normPrice normRating : String → Rat) (raws : List RawListing) :
    ((NormalizeAndSave ins s0 normPrice normRating raws).2 = none ↔ raws ≠ []) ∧
      (NormalizeAndSave (fun (s : Unit) l => (s, f l)) () normPrice normRating raws).1 =
        ((raws.map (normalizeRaw normPrice normRating)).filter
          (fun l => l.title != "" && l.url != "")).countP f := by
  constructor
  · cases raws with
    | nil => simp [NormalizeAndSave]
    | cons r rs => simp [NormalizeAndSave]
  · have aux : ∀ (rs : List RawListing) (k : Nat),
        (rs.foldl (saveStep (fun (s : Unit) l => (s, f l)) normPrice normRating) ((), k)).2 =
          k + ((rs.map (normalizeRaw normPrice normRating)).filter
            (fun l => l.title != "" && l.url != "")).countP f := by
      intro rs
      induction rs with
      | nil => intro k; simp
      | cons r rs ih =>
        intro k
        rw [List.foldl_cons]
        by_cases hr : (normalizeRaw normPrice normRating r).title = "" ∨
            (normalizeRaw normPrice normRating r).url = ""
        · rw [show saveStep (fun (s : Unit) l => (s, f l)) normPrice normRating ((), k) r =
              ((), k) by rw [saveStep]; exact if_pos hr]
          rw [ih k]
          congr 1
          rw [List.map_cons, List.filter_cons, if_neg]
          simp only [Bool.and_eq_true, bne_iff_ne]
          exact fun h => hr.elim h.1 h.2
        · rw [not_or] at hr
          rw [show saveStep (fun (s : Unit) l => (s, f l)) normPrice normRating ((), k) r =
              ((), if f (normalizeRaw normPrice normRating r) then k + 1 else k) by
            rw [saveStep, if_neg (by rw [not_or]; exact hr)]]
          have hfilter : ((normalizeRaw normPrice normRating r).title != "" &&
              (normalizeRaw normPrice normRating r).url != "") = true := by
            rw [Bool.and_eq_true, bne_iff_ne, bne_iff_ne]
            exact ⟨hr.1, hr.2⟩
          rw [List.map_cons, List.filter_cons, if_pos hfilter, List.countP_cons]
          by_cases hf : f (normalizeRaw normPrice normRating r) = true
          · rw [if_pos hf, ih (k + 1), if_pos hf]
            omega
          · rw [if_neg hf, ih k, if_neg hf]
            omega
    cases raws with
    | nil => simp [NormalizeAndSave]
    | cons r rs =>
      rw [NormalizeAndSave, if_neg (by simp)]
      show (List.foldl (saveStep (fun (s : Unit) l => (s, f l)) normPrice normRating)
        ((), 0) (r :: rs)).2 = _
      rw [aux (r :: rs) 0]
      omega

/-- C10 witness (no hypotheses in the contract, but a concrete run): one
skipped record, one failing insert, one success give count 1 and no
error. -/
theorem normalizeAndSave_contract_witness :
    (NormalizeAndSave (fun (s : Unit) l => (s, l.title != "bad")) () (fun _ => 0) (fun _ => 0)
        [⟨"", "", "", "", "u", 0, 0, 0⟩, ⟨"bad", "", "", "", "u2", 0, 0, 0⟩,
          ⟨"good", "", "", "", "u3", 0, 0, 0⟩]).1 = 1 ∧
    (NormalizeAndSave (fun (s : Unit) l => (s, l.title != "bad")) () (fun _ => 0) (fun _ => 0)
        [⟨"", "", "", "", "u", 0, 0, 0⟩, ⟨"bad", "", "", "", "u2", 0, 0, 0⟩,
          ⟨"good", "", "", "", "u3", 0, 0, 0⟩]).2 = none := by
  have h := normalizeAndSave_contract (fun (s : Unit) l => (s, l.title != "bad")) ()
    (fun l => l.title != "bad") (fun _ => 0) (fun _ => 0)
    [⟨"", "", "", "", "u", 0, 0, 0⟩, ⟨"bad", "", "", "", "u2", 0, 0, 0⟩,
      ⟨"good", "", "", "", "u3", 0, 0, 0⟩]
  constructor
  · rw [h.2]
    decide
  · rw [h.1]
    intro he
    exact List.noConfusion he
